import Mathlib

/-
  Verification of the foxlive audio engine core (libfoxlive).

  Shallow embedding of the parts of the source that the verified
  properties are about:
  - sample arithmetic and slice helpers   (src/libfoxlive/src/data/sample.rs)
  - buffers and strided channel views     (src/libfoxlive/src/data/buffer.rs,
                                           src/libfoxlive/src/data/channels.rs)
  - the DSP graph scheduler               (src/libfoxlive/src/dsp/graph.rs)
  - the media source node                 (src/libfoxlive/src/dsp/media.rs)
  - the streaming reader state machine    (src/libfoxlive/src/format/reader.rs)
  - time-base conversions                 (src/libfoxlive/src/data/time.rs)

  Samples are generic in the source (`S: Sample`); the engine instantiates
  them at floating point (f32 in the jack backend).  Floating-point sample
  arithmetic is idealized as exact rational arithmetic: `mul_amp` is
  multiplication, `add_amp` addition, `to_signed_sample` the identity,
  `equilibrium` 0 and `identity` 1, exactly the float instances of the
  `sample` crate used by the code.
-/

namespace Foxlive

/-- Sample type: float samples idealized as exact rationals. -/
abbrev Sample := ℚ

/-- `Sample::equilibrium()` - the zero/silence sample (0.0 for floats). -/
def equilibrium : Sample := 0

/-- `Sample::identity()` - the multiplicative identity amp (1.0 for floats). -/
def identity : Sample := 1

/-- `Sample::mul_amp` for float samples: multiplication. -/
def mul_amp (a amp : Sample) : Sample := a * amp

/-- `Sample::add_amp` for float samples: addition. -/
def add_amp (a b : Sample) : Sample := a + b

/-- `Sample::to_signed_sample` for float samples: the identity. -/
def to_signed_sample (a : Sample) : Sample := a

/-- `fill_samples` (data/sample.rs): overwrite every sample of the slice
with `value`. -/
def fill_samples (a : List Sample) (value : Sample) : List Sample :=
  a.map (fun _ => value)

/-- An audio buffer (data/buffer.rs `Buffer`): interleaved flag, channel
count (derived from the channel layout) and the flat sample store. -/
structure Buffer where
  interleaved : Bool
  nChannels : Nat
  data : List Sample
  deriving DecidableEq

/-- Indices of channel `c`s samples inside a flat store of length `len`
with `step` channels: `Channel::new(ptr, len, c, step)` (channels.rs)
iterates positions `c, c + step, c + 2*step, ...` below `len`, i.e. the
indices congruent to `c` modulo `step` (for `c < step`). -/
def channelIndices (len c step : Nat) : List Nat :=
  (List.range len).filter (fun i => decide (i % step = c))

/-- The samples of channel `c` of a buffer (`Buffer::channel`), read
through the strided view. -/
def channelSamples (b : Buffer) (c : Nat) : List Sample :=
  (channelIndices b.data.length c b.nChannels).map
    (fun i => b.data.getD i equilibrium)

/-- One channel of `zip_map` (data/buffer.rs): zip channel `c` of `a`
with channel `c` of `src` and store `func a_i src_i` back into `a`s
strided slots. -/
def zipMapChannel (a : Buffer) (src : Buffer)
    (func : Sample → Sample → Sample) (c : Nat) : Buffer :=
  let idxs := channelIndices a.data.length c a.nChannels
  let srcs := channelSamples src c
  { a with
    data := (idxs.zip srcs).foldl
      (fun d p => d.set p.1 (func (d.getD p.1 equilibrium) p.2)) a.data }

/-- `zip_map` (data/buffer.rs): iterate `min(a.n_channels, src.n_channels)`
channels, zipping the two strided views sample by sample. -/
def zip_map (a : Buffer) (src : Buffer)
    (func : Sample → Sample → Sample) : Buffer :=
  (List.range (min a.nChannels src.nChannels)).foldl
    (fun acc c => zipMapChannel acc src func c) a

/-- The blend closure of `Graph::process_nodes` (graph.rs:228-229): with
`(dry, wet) = (-node.wet(), node.wet())` the closure is
`|a, b| a.mul_amp(wet).add_amp(b.mul_amp(dry).to_signed_sample())`. -/
def blendFn (wet : Sample) (a b : Sample) : Sample :=
  add_amp (mul_amp a wet) (to_signed_sample (mul_amp b (-wet)))

/-- The zero-fill of `Graph::process_nodes` (graph.rs:223-224): after
`process_audio` returned `n`, `fill_samples(&mut node_buffer.as_slice_mut()[n..],
S::equilibrium())` overwrites the tail starting at `n` with the
equilibrium sample. -/
def zeroFillTail (data : List Sample) (n : Nat) : List Sample :=
  data.take n ++ fill_samples (data.drop n) equilibrium

/-- The output-producing part of one non-sink node step of
`Graph::process_nodes` (graph.rs:220-231): `written` is the node buffer
as left by `node.dsp.process_audio` which returned `n`; the scheduler
zero-fills the tail from `n`, then, if the node consumed an input and its
wet ratio is not the identity, blends the buffer with the input through
`zip_map_inplace` using `blendFn`. -/
def processNodeOutput (wet : Sample) (input : Option Buffer)
    (written : Buffer) (n : Nat) : Buffer :=
  let filled := { written with data := zeroFillTail written.data n }
  match input with
  | none => filled
  | some inp =>
      if wet ≠ identity then zip_map filled inp (blendFn wet) else filled

/-- State of the media source node visible to `process_audio`
(dsp/media.rs `MediaView`): the ring-buffer consumer end (`cache`, FIFO:
head is popped first), the `amp` gain control and the sample-position
counter `pos`. -/
structure MediaState where
  cache : List Sample
  amp : Sample
  pos : Nat

/-- Result of `MediaView::process_audio`: the state after the call, the
content of the output slice after the call, and the returned count. -/
structure MediaOut where
  state : MediaState
  output : List Sample
  count : Nat

/-- `MediaView::process_audio` (dsp/media.rs:106-124).  `remaining()` of
the ring-buffer consumer is the number of unread samples, i.e. the cache
length; `count` is that, rounded down to a whole number of frames
(`remaining - remaining % n_channels`), capped by the output length;
`pop_slice(&mut slice[0..count])` pops `min(count, remaining)` samples
into the front of the slice and returns how many; each popped sample is
scaled by `amp`; `pos` advances by the popped count, which is returned. -/
def mediaProcessAudio (m : MediaState) (nChannels : Nat)
    (output : List Sample) : MediaOut :=
  let remaining := m.cache.length
  let count0 := min (remaining - remaining % nChannels) output.length
  let sub := output.take count0
  let count := min sub.length m.cache.length
  let subAfterPop := m.cache.take count ++ sub.drop count
  let whole := subAfterPop ++ output.drop count0
  let scaled := (whole.take count).map (fun s => mul_amp s m.amp)
                  ++ whole.drop count
  { state := { cache := m.cache.drop count, amp := m.amp, pos := m.pos + count },
    output := scaled,
    count := count }

/-! ## The DSP graph (dsp/graph.rs) -/

/-- The graph (dsp/graph.rs `Graph`): the stable DAG as a list of nodes
`(stable node index, dsp.n_channels())` and a list of edges
`(stable edge index, parent, child)`, the cached topological order
`ordered_nodes`, and the cached maximum channel count `n_channels`.
Stable indices are handed out by counters, as in petgraph's StableGraph
where removals never invalidate other indices. -/
structure Graph where
  nodes : List (Nat × Nat)
  edges : List (Nat × Nat × Nat)
  orderedNodes : List Nat
  nChannels : Nat
  nextNodeId : Nat
  nextEdgeId : Nat
  deriving DecidableEq

namespace Graph

/-- The node indices of the graph. -/
def nodeIds (g : Graph) : List Nat := g.nodes.map (fun p => p.1)

/-- The edges as (parent, child) pairs. -/
def edgePairs (g : Graph) : List (Nat × Nat) :=
  g.edges.map (fun e => (e.2.1, e.2.2))

/-- `Graph::add_node` (graph.rs:281-288): raise `n_channels` to
`self.n_channels.max(dsp.n_channels())`, insert a fresh `Unit`, return
its index. -/
def add_node (g : Graph) (dspNChannels : Nat) : Graph × Nat :=
  ({ g with
      nChannels := max g.nChannels dspNChannels,
      nodes := g.nodes ++ [(g.nextNodeId, dspNChannels)],
      nextNodeId := g.nextNodeId + 1 },
   g.nextNodeId)

/-- `Graph::add_edge` (graph.rs:298-300). -/
def add_edge (g : Graph) (parent child : Nat) : Graph × Nat :=
  ({ g with
      edges := g.edges ++ [(g.nextEdgeId, parent, child)],
      nextEdgeId := g.nextEdgeId + 1 },
   g.nextEdgeId)

/-- `Graph::add_child` (graph.rs:291-295): `add_node` then an edge from
`parent` to the new node. -/
def add_child (g : Graph) (parent : Nat) (dspNChannels : Nat) : Graph × Nat :=
  let r := g.add_node dspNChannels
  ((r.1.add_edge parent r.2).1, r.2)

/-- `Graph::remove_node` (graph.rs:303-305): StableGraph's `remove_node`
also removes all edges incident to the node. -/
def remove_node (g : Graph) (n : Nat) : Graph :=
  { g with
    nodes := g.nodes.filter (fun p => decide (p.1 ≠ n)),
    edges := g.edges.filter (fun e => decide (e.2.1 ≠ n ∧ e.2.2 ≠ n)) }

/-- `Graph::remove_edge` (graph.rs:308-310). -/
def remove_edge (g : Graph) (e : Nat) : Graph :=
  { g with edges := g.edges.filter (fun x => decide (x.1 ≠ e)) }

/-- `Graph::disconnect_nodes` (graph.rs:313-316): `find_edge` then
`remove_edge` on the found edge, a no-op when there is none. -/
def disconnect_nodes (g : Graph) (parent child : Nat) : Graph :=
  match g.edges.find? (fun e => decide (e.2.1 = parent ∧ e.2.2 = child)) with
  | some e => g.remove_edge e.1
  | none => g

end Graph

/-! ## Topological sort (`Graph::updated`, graph.rs:238-241)

`updated()` recomputes `ordered_nodes` with `petgraph::algo::toposort`
and `.expect("cycles are not allowed")`: the sort returns an order of all
nodes when the graph is acyclic and an error (here: `none`, the panic)
when it has a cycle.  The sort is modelled as the spec describes it
("Kahn-style or DFS-based sort"): repeatedly emit a node that has no
incoming edge from the not-yet-emitted nodes. -/

/-- Number of edges into `v` from nodes still in `rem`. -/
def inDegree (edges : List (Nat × Nat)) (rem : List Nat) (v : Nat) : Nat :=
  (edges.filter (fun e => decide (e.2 = v ∧ e.1 ∈ rem))).length

/-- First node of `rem` with no incoming edge from `rem`. -/
def findSource (edges : List (Nat × Nat)) (rem : List Nat) : Option Nat :=
  rem.find? (fun v => decide (inDegree edges rem v = 0))

/-- Kahn's algorithm with explicit fuel (`fuel = rem.length` at the top
call, enough for one emission per node): emit a source, recurse on the
rest; fail when no source exists. -/
def kahnAux (edges : List (Nat × Nat)) : Nat → List Nat → Option (List Nat)
  | _, [] => some []
  | 0, _ :: _ => none
  | fuel + 1, v :: rem =>
      match findSource edges (v :: rem) with
      | none => none
      | some s => (kahnAux edges fuel ((v :: rem).erase s)).map (fun l => s :: l)

/-- The topological sort over the graph's node list. -/
def toposort (edges : List (Nat × Nat)) (nodes : List Nat) : Option (List Nat) :=
  kahnAux edges nodes.length nodes

/-- `Graph::updated` (graph.rs:238-241): recompute `ordered_nodes`;
`none` models the fatal `.expect("cycles are not allowed")` panic. -/
def Graph.updated (g : Graph) : Option Graph :=
  (toposort g.edgePairs g.nodeIds).map (fun ord => { g with orderedNodes := ord })

/-- Well-formedness of the DAG: every edge joins nodes of the graph
(guaranteed by petgraph, which rejects edges on absent endpoints). -/
def Graph.WFEdges (g : Graph) : Prop :=
  ∀ e ∈ g.edgePairs, e.1 ∈ g.nodeIds ∧ e.2 ∈ g.nodeIds

instance (g : Graph) : Decidable g.WFEdges := by
  unfold Graph.WFEdges; infer_instance

/-- A cycle in the edge relation: some node reaches itself through one or
more edges. -/
def HasCycle (edges : List (Nat × Nat)) : Prop :=
  ∃ v, Relation.TransGen (fun a b => (a, b) ∈ edges) v v

/-! ## The streaming reader (format/reader.rs) -/

/-- `Poll` (format/futures.rs): `futures::task::Poll<Result<(), Error>>`,
with the error carried as its message string. -/
inductive Poll where
  | pending
  | readyOk
  | readyErr (msg : String)
  deriving DecidableEq

/-- `pending_or_err` (format/futures.rs:13-18): turn `Ready(Ok)` into
`Pending`, keep everything else. -/
def pending_or_err (p : Poll) : Poll :=
  match p with
  | Poll.readyOk => Poll.pending
  | _ => p

/-- The reader state observed by `poll_once` (format/reader.rs `Reader`):
whether a decode context is open (`context.is_some()`), the `stopped`
flag, and the ring-buffer producer's counters - `cacheFree` is
`Producer::remaining()` (free slots) and `cacheLen` is `Producer::len()`
(samples currently stored). -/
structure ReaderState where
  contextOpen : Bool
  stopped : Bool
  cacheFree : Nat
  cacheLen : Nat
  deriving DecidableEq

/-- `Reader::poll_once` (format/reader.rs:190-198).  `read_packet`
(the demux/decode step, FFI-backed) is passed as an oracle; the third
component of the result records whether it was invoked. -/
def poll_once (readPacket : ReaderState → Poll × ReaderState)
    (r : ReaderState) : Poll × ReaderState × Bool :=
  if r.stopped then (Poll.readyOk, r, false)
  else if r.contextOpen = true ∧ r.cacheFree > r.cacheLen / 2 then
    let pr := readPacket r
    (pending_or_err pr.1, pr.2, true)
  else (Poll.pending, r, false)

/-! ## Time base and seek (data/time.rs, format/reader.rs) -/

/-- `TimeBase::duration_to_ts` (data/time.rs:20-22):
`duration.as_micros() as i64 * den as i64 / (num as i64 * 1000000)`,
with `micros` the duration in microseconds.  All operands are
nonnegative, where Rust's truncating `i64` division agrees with `Int`
division. -/
def duration_to_ts (num den : Nat) (micros : Nat) : Int :=
  (micros : Int) * (den : Int) / ((num : Int) * 1000000)

/-- `Reader::seek` (format/reader.rs:276-291): with an open context,
convert the requested position to the stream time base and call
`av_seek_frame`; on a nonnegative return report `Ok(pos)` (the requested
duration itself), otherwise the AV error; without a context report the
"not opened" error.  The result records the timestamp handed to the
container seek (`none` when no seek was issued) and the returned
`Result`. -/
def Reader.seek (contextOpen : Bool) (num den : Nat)
    (avSeekRet : Int) (micros : Nat) : Option Int × Except String Nat :=
  if contextOpen then
    let realPos := duration_to_ts num den micros
    if avSeekRet ≥ 0 then (some realPos, Except.ok micros)
    else (some realPos, Except.error "averror")
  else (none, Except.error "not opened")

/-! ## Control lookup (rpc/object.rs, dsp/graph.rs, dsp/controller.rs) -/

/-- `Value` (rpc/value.rs): the tagged union passed to `set_value`.
Floats are idealized as rationals, durations as microseconds. -/
inductive Value where
  | bool (b : Bool)
  | u8 (n : Nat)
  | i16 (n : Int)
  | i32 (n : Int)
  | f32 (q : ℚ)
  | f64 (q : ℚ)
  | duration (micros : Nat)
  | index (n : Nat)
  | string (s : String)
  deriving DecidableEq

/-- The graph's control index (graph.rs `objects_map`): control id to
owning node, as declared once per node by the control mapping. -/
abbrev ObjectsMap := List (Nat × Nat)

/-- `Graph` `get_value` (graph.rs:328-331): resolve the control id
through `objects_map`, then through the node table, then delegate to the
node's own `get_value`; any missing link yields `None`. -/
def Graph.get_value (objectsMap : ObjectsMap) (nodePresent : List Nat)
    (nodeGet : Nat → Nat → Option Value) (index : Nat) : Option Value :=
  match objectsMap.find? (fun p => decide (p.1 = index)) with
  | some p => if p.2 ∈ nodePresent then nodeGet p.2 index else none
  | none => none

/-- `Graph` `set_value` (graph.rs:333-341): resolve the control id
through `objects_map` and the node table, spin on the node's processing
flag, then delegate; a control id absent from the map, or one whose node
was removed, yields `Err(())`. -/
def Graph.set_value (objectsMap : ObjectsMap) (nodePresent : List Nat)
    (nodeSet : Nat → Nat → Value → Except Unit Value)
    (index : Nat) (value : Value) : Except Unit Value :=
  match objectsMap.find? (fun p => decide (p.1 = index)) with
  | some p =>
      if p.2 ∈ nodePresent then nodeSet p.2 index value
      else Except.error ()
  | none => Except.error ()

/-- `set_control` generated by `#[foxlive_controller]` for `MediaView`
(libfoxlive_derive/src/lib.rs:243-253, dsp/media.rs:31-35): controls `0`
(`amp`) and `1` (`pos`, routed to `seek`) are declared; every other
index falls to the `_ => Err(())` arm.  The declared arms are passed as
oracles since they call into the node. -/
def MediaView.set_control (setAmp : Value → Except Unit Value)
    (setPos : Value → Except Unit Value)
    (control : Nat) (value : Value) : Except Unit Value :=
  match control with
  | 0 => setAmp value
  | 1 => setPos value
  | _ => Except.error ()

/-- `get_control` generated by `#[foxlive_controller]` for `MediaView`:
declared controls answer, every other index falls to `_ => None`. -/
def MediaView.get_control (getAmp : Option Value) (getPos : Option Value)
    (control : Nat) : Option Value :=
  match control with
  | 0 => getAmp
  | 1 => getPos
  | _ => none

end Foxlive

namespace Foxlive

/-! ## Theorems -/

/-- C9: the graph's cached maximum channel count `n_channels` is
monotonically non-decreasing under every mutation operation:
`add_node`/`add_child` raise it to the max of its current value and the
inserted DSP's channel count; `remove_node`, `remove_edge` and
`disconnect_nodes` leave it unchanged, so the arena slot width used by
`process_nodes` never shrinks. -/
theorem nChannels_monotone (g : Graph) (nc p c n e : Nat) :
    (g.add_node nc).1.nChannels = max g.nChannels nc ∧
    (g.add_child p nc).1.nChannels = max g.nChannels nc ∧
    (g.remove_node n).nChannels = g.nChannels ∧
    (g.remove_edge e).nChannels = g.nChannels ∧
    (g.disconnect_nodes p c).nChannels = g.nChannels ∧
    g.nChannels ≤ (g.add_node nc).1.nChannels ∧
    g.nChannels ≤ (g.add_child p nc).1.nChannels := by
  refine ⟨rfl, rfl, rfl, rfl, ?_, le_max_left _ _, le_max_left _ _⟩
  unfold Graph.disconnect_nodes
  cases g.edges.find? (fun x => decide (x.2.1 = p ∧ x.2.2 = c)) <;> rfl

/-- C5: once `stop()` has set the `stopped` flag, every `poll_once()`
call immediately returns `Poll::Ready(Ok(()))`, leaves the reader
untouched and performs no decode work, regardless of any other state. -/
theorem stopped_poll_always_ready (readPacket : ReaderState → Poll × ReaderState)
    (r : ReaderState) (h : r.stopped = true) :
    poll_once readPacket r = (Poll.readyOk, r, false) := by
  simp [poll_once, h]

/-- C5 witness. -/
theorem stopped_poll_always_ready_witness :
    (ReaderState.mk true true 7 3).stopped = true ∧
    poll_once (fun s => (Poll.pending, s)) (ReaderState.mk true true 7 3) =
      (Poll.readyOk, ReaderState.mk true true 7 3, false) :=
  ⟨rfl, stopped_poll_always_ready _ _ rfl⟩

/-- C10: with an open context and not stopped, `poll_once()` invokes
`read_packet` exactly when the producer's free space exceeds half of
`cache.len()`; otherwise it returns `Poll::Pending` with the state
untouched (no packet read, no samples pushed). -/
theorem poll_reads_iff_cache_half_free
    (readPacket : ReaderState → Poll × ReaderState) (r : ReaderState)
    (hstop : r.stopped = false) (hopen : r.contextOpen = true) :
    ((poll_once readPacket r).2.2 = true ↔ r.cacheFree > r.cacheLen / 2) ∧
    (¬ r.cacheFree > r.cacheLen / 2 →
      poll_once readPacket r = (Poll.pending, r, false)) := by
  constructor
  · by_cases hc : r.cacheFree > r.cacheLen / 2 <;>
      simp [poll_once, hstop, hopen, hc]
  · intro hc
    simp [poll_once, hstop, hopen, hc]

/-- C10 witness. -/
theorem poll_reads_iff_cache_half_free_witness :
    (ReaderState.mk true false 1 4).stopped = false ∧
    (ReaderState.mk true false 1 4).contextOpen = true ∧
    (((poll_once (fun s => (Poll.readyOk, s)) (ReaderState.mk true false 1 4)).2.2 = true ↔
        (ReaderState.mk true false 1 4).cacheFree > (ReaderState.mk true false 1 4).cacheLen / 2) ∧
      (¬ (ReaderState.mk true false 1 4).cacheFree > (ReaderState.mk true false 1 4).cacheLen / 2 →
        poll_once (fun s => (Poll.readyOk, s)) (ReaderState.mk true false 1 4) =
          (Poll.pending, ReaderState.mk true false 1 4, false))) :=
  ⟨rfl, rfl, poll_reads_iff_cache_half_free _ _ rfl rfl⟩

/-- C6: `Reader::seek(duration)` with an open context converts the target
duration to the stream's timestamp units by the exact integer formula
`micros * den / (num * 1000000)` (the value handed to the container-level
`av_seek_frame`), and when the container seek succeeds it returns exactly
the requested duration. -/
theorem seek_exact_conversion (num den micros : Nat) (ret : Int)
    (hret : 0 ≤ ret) :
    Reader.seek true num den ret micros =
      (some ((micros * den / (num * 1000000) : Nat) : Int), Except.ok micros) := by
  have hts : duration_to_ts num den micros =
      ((micros * den / (num * 1000000) : Nat) : Int) := by
    unfold duration_to_ts
    rw [Int.ofNat_ediv]
    push_cast
    ring_nf
  simp [Reader.seek, hret, hts]

/-- C6 witness. -/
theorem seek_exact_conversion_witness :
    (0 : Int) ≤ 0 ∧
    Reader.seek true 1 48000 0 1000000 =
      (some ((1000000 * 48000 / (1 * 1000000) : Nat) : Int), Except.ok 1000000) :=
  ⟨le_refl 0, seek_exact_conversion 1 48000 1000000 0 (le_refl 0)⟩

/-- C8: a control/object index that was not declared by the control
mapping yields a typed "not found" failure: the graph's `set_value`
returns `Err(())` and `get_value` returns `None` for any index absent
from `objects_map`, and the generated node-level `set_control` /
`get_control` fall to their `_ => Err(())` / `_ => None` arms for any
index beyond the declared controls. -/
theorem unknown_control_not_found (objectsMap : ObjectsMap)
    (nodePresent : List Nat) (nodeGet : Nat → Nat → Option Value)
    (nodeSet : Nat → Nat → Value → Except Unit Value)
    (index : Nat) (value : Value)
    (h : ∀ p ∈ objectsMap, p.1 ≠ index)
    (setAmp setPos : Value → Except Unit Value)
    (getAmp getPos : Option Value) (control : Nat) (hc : 2 ≤ control) :
    Graph.set_value objectsMap nodePresent nodeSet index value = Except.error () ∧
    Graph.get_value objectsMap nodePresent nodeGet index = none ∧
    MediaView.set_control setAmp setPos control value = Except.error () ∧
    MediaView.get_control getAmp getPos control = none := by
  have hfind : objectsMap.find? (fun p => decide (p.1 = index)) = none := by
    rw [List.find?_eq_none]
    intro p hp
    simpa using h p hp
  obtain ⟨k, rfl⟩ : ∃ k, control = k + 2 := ⟨control - 2, by omega⟩
  refine ⟨?_, ?_, ?_, ?_⟩
  · simp [Graph.set_value, hfind]
  · simp [Graph.get_value, hfind]
  · rfl
  · rfl

/-- C8 witness. -/
theorem unknown_control_not_found_witness :
    (∀ p ∈ ([(0, 4), (1, 4)] : ObjectsMap), p.1 ≠ 9) ∧ 2 ≤ 5 ∧
    (Graph.set_value [(0, 4), (1, 4)] [4] (fun _ _ v => Except.ok v) 9
        (Value.i32 1) = Except.error () ∧
      Graph.get_value [(0, 4), (1, 4)] [4] (fun _ _ => some (Value.i32 0)) 9 = none ∧
      MediaView.set_control (fun v => Except.ok v) (fun v => Except.ok v) 5
        (Value.i32 1) = Except.error () ∧
      MediaView.get_control (some (Value.i32 0)) (some (Value.i32 0)) 5 = none) :=
  ⟨by decide, by decide,
   unknown_control_not_found _ _ _ _ _ _ (by decide) _ _ _ _ _ (by decide)⟩

/-- Closed form of `MediaView::process_audio`: with
`c = min(remaining - remaining % n_channels, output.len())` samples, it
pops `c` samples off the cache, scales them by `amp`, leaves the rest of
the output untouched, advances `pos` by `c` and returns `c`. -/
theorem mediaProcessAudio_eq (m : MediaState) (nChannels : Nat)
    (output : List Sample) :
    mediaProcessAudio m nChannels output =
      { state :=
          { cache := m.cache.drop
              (min (m.cache.length - m.cache.length % nChannels) output.length),
            amp := m.amp,
            pos := m.pos +
              min (m.cache.length - m.cache.length % nChannels) output.length },
        output :=
          (m.cache.take
              (min (m.cache.length - m.cache.length % nChannels) output.length)).map
            (fun s => mul_amp s m.amp)
          ++ output.drop
              (min (m.cache.length - m.cache.length % nChannels) output.length),
        count := min (m.cache.length - m.cache.length % nChannels) output.length } := by
  unfold mediaProcessAudio
  have hlen : (output.take
      (min (m.cache.length - m.cache.length % nChannels) output.length)).length =
      min (m.cache.length - m.cache.length % nChannels) output.length := by
    rw [List.length_take]
    omega
  have hmin : min (min (m.cache.length - m.cache.length % nChannels)
      output.length) m.cache.length =
      min (m.cache.length - m.cache.length % nChannels) output.length := by
    omega
  simp only [hlen, hmin]
  have hdropsub : (output.take
      (min (m.cache.length - m.cache.length % nChannels) output.length)).drop
      (min (m.cache.length - m.cache.length % nChannels) output.length) = [] := by
    apply List.drop_eq_nil_of_le
    rw [hlen]
  have htakelen : (m.cache.take
      (min (m.cache.length - m.cache.length % nChannels) output.length)).length =
      min (m.cache.length - m.cache.length % nChannels) output.length := by
    rw [List.length_take]
    omega
  rw [hdropsub, List.append_nil]
  rw [List.take_left' htakelen, List.drop_left' htakelen]

/-- C4: on each block `MediaView::process_audio` pops at most the output
length of samples, the available count first rounded down to a whole
number of frames; it scales each popped sample by `amp`, leaves the rest
of the output untouched, advances `pos` by the popped count and returns
that count - when fewer samples are available than requested it returns
the smaller count instead of failing.  The positive channel count keeps
the statement inside the region where Rust's `%` is defined (the model
totalizes `% 0`, the code would panic). -/
theorem media_process_audio_pops_frames (m : MediaState) (nChannels : Nat)
    (output : List Sample) (_hnc : 0 < nChannels) :
    (mediaProcessAudio m nChannels output).count
      = min (m.cache.length - m.cache.length % nChannels) output.length ∧
    (mediaProcessAudio m nChannels output).count ≤ output.length ∧
    (mediaProcessAudio m nChannels output).state.pos
      = m.pos + (mediaProcessAudio m nChannels output).count ∧
    (mediaProcessAudio m nChannels output).state.amp = m.amp ∧
    (mediaProcessAudio m nChannels output).state.cache
      = m.cache.drop (mediaProcessAudio m nChannels output).count ∧
    (mediaProcessAudio m nChannels output).output.length = output.length ∧
    (∀ i, i < (mediaProcessAudio m nChannels output).count →
      (mediaProcessAudio m nChannels output).output.getD i equilibrium
        = mul_amp (m.cache.getD i equilibrium) m.amp) ∧
    (∀ i, (mediaProcessAudio m nChannels output).count ≤ i →
      (mediaProcessAudio m nChannels output).output.getD i equilibrium
        = output.getD i equilibrium) := by
  rw [mediaProcessAudio_eq]
  dsimp only
  set c := min (m.cache.length - m.cache.length % nChannels) output.length with hc
  have hcle : c ≤ output.length := min_le_right _ _
  have hccache : c ≤ m.cache.length := le_trans (min_le_left _ _) (Nat.sub_le _ _)
  have htakelen : (m.cache.take c).length = c := by
    rw [List.length_take]
    omega
  refine ⟨rfl, hcle, rfl, rfl, rfl, ?_, ?_, ?_⟩
  · simp only [List.length_append, List.length_map, List.length_drop, htakelen]
    omega
  · intro i hi
    rw [List.getD_eq_getElem?_getD, List.getElem?_append_left
      (by simp only [List.length_map, htakelen]; exact hi), List.getElem?_map]
    rw [List.getElem?_take_of_lt hi]
    have hicache : i < m.cache.length := lt_of_lt_of_le hi hccache
    rw [List.getElem?_eq_getElem hicache]
    rw [List.getD_eq_getElem?_getD, List.getElem?_eq_getElem hicache]
    rfl
  · intro i hi
    rw [List.getD_eq_getElem?_getD, List.getElem?_append_right
      (by simp only [List.length_map, htakelen]; exact hi)]
    simp only [List.length_map, htakelen, List.getElem?_drop]
    rw [List.getD_eq_getElem?_getD]
    have hidx : c + (i - c) = i := by omega
    rw [hidx]

/-- C4 witness. -/
theorem media_process_audio_pops_frames_witness :
    0 < 2 ∧
    ((mediaProcessAudio (MediaState.mk [1, 2, 3] 2 10) 2 [0, 0]).count
        = min ((3 : Nat) - 3 % 2) 2 ∧
      (mediaProcessAudio (MediaState.mk [1, 2, 3] 2 10) 2 [0, 0]).count ≤ 2 ∧
      (mediaProcessAudio (MediaState.mk [1, 2, 3] 2 10) 2 [0, 0]).state.pos
        = 10 + (mediaProcessAudio (MediaState.mk [1, 2, 3] 2 10) 2 [0, 0]).count ∧
      (mediaProcessAudio (MediaState.mk [1, 2, 3] 2 10) 2 [0, 0]).state.amp = 2 ∧
      (mediaProcessAudio (MediaState.mk [1, 2, 3] 2 10) 2 [0, 0]).state.cache
        = [1, 2, 3].drop (mediaProcessAudio (MediaState.mk [1, 2, 3] 2 10) 2 [0, 0]).count ∧
      (mediaProcessAudio (MediaState.mk [1, 2, 3] 2 10) 2 [0, 0]).output.length = 2 ∧
      (∀ i, i < (mediaProcessAudio (MediaState.mk [1, 2, 3] 2 10) 2 [0, 0]).count →
        (mediaProcessAudio (MediaState.mk [1, 2, 3] 2 10) 2 [0, 0]).output.getD i equilibrium
          = mul_amp ([1, 2, 3].getD i equilibrium) 2) ∧
      (∀ i, (mediaProcessAudio (MediaState.mk [1, 2, 3] 2 10) 2 [0, 0]).count ≤ i →
        (mediaProcessAudio (MediaState.mk [1, 2, 3] 2 10) 2 [0, 0]).output.getD i equilibrium
          = [0, 0].getD i equilibrium)) :=
  ⟨by decide, media_process_audio_pops_frames (MediaState.mk [1, 2, 3] 2 10) 2 [0, 0] (by decide)⟩

/-- C3: after `process_audio` returned `n`, the scheduler's
`fill_samples(&mut node_buffer[n..], equilibrium)` makes every position
from `n` on equal the equilibrium sample (the slot length unchanged);
and before any data has been decoded (empty ring-buffer cache) the media
source reports `0` samples written, so the zero-fill covers the whole
block, yielding an all-zero block for that cycle. -/
theorem zero_fill_tail_and_underrun (data : List Sample) (n i : Nat)
    (hn : n ≤ i) (hi : i < data.length)
    (m : MediaState) (hm : m.cache = []) (nChannels : Nat)
    (out : List Sample) :
    (zeroFillTail data n).getD i equilibrium = equilibrium ∧
    (zeroFillTail data n).length = data.length ∧
    (mediaProcessAudio m nChannels out).count = 0 ∧
    zeroFillTail out 0 = List.replicate out.length equilibrium := by
  have hnlen : n ≤ data.length := le_of_lt (lt_of_le_of_lt hn hi)
  have htakelen : (data.take n).length = n := by
    rw [List.length_take]
    omega
  refine ⟨?_, ?_, ?_, ?_⟩
  · unfold zeroFillTail fill_samples
    rw [List.getD_eq_getElem?_getD, List.getElem?_append_right
      (by simpa [htakelen] using hn)]
    have hidx : i - (data.take n).length < ((data.drop n).map
        (fun _ => equilibrium)).length := by
      simp only [List.length_map, List.length_drop, htakelen]
      omega
    rw [List.getElem?_eq_getElem hidx]
    simp
  · unfold zeroFillTail fill_samples
    simp only [List.length_append, List.length_map, List.length_drop, htakelen]
    omega
  · rw [mediaProcessAudio_eq]
    simp [hm]
  · unfold zeroFillTail fill_samples
    simp [List.map_const']

/-- C3 witness. -/
theorem zero_fill_tail_and_underrun_witness :
    (1 : Nat) ≤ 2 ∧ (2 : Nat) < 3 ∧ (MediaState.mk [] 1 0).cache = [] ∧
    ((zeroFillTail [4, 5, 6] 1).getD 2 equilibrium = equilibrium ∧
      (zeroFillTail [4, 5, 6] 1).length = 3 ∧
      (mediaProcessAudio (MediaState.mk [] 1 0) 2 [7, 8]).count = 0 ∧
      zeroFillTail [7, 8] 0 = List.replicate 2 equilibrium) :=
  ⟨by decide, by decide, rfl,
   zero_fill_tail_and_underrun [4, 5, 6] 1 2 (by decide) (by decide)
     (MediaState.mk [] 1 0) rfl 2 [7, 8]⟩

/-- C2 (refuted as stated): the blend of `process_nodes` uses
`(dry, wet) = (-wet, wet)` (graph.rs:228), so each sample becomes
`output*wet + input*(-wet)`, not `output*wet + input*(1-wet)`.  At
`wet = 0` (full dry per dsp.rs:46) on a one-channel block where
`process_audio` wrote `5` and the gathered input is `7`, the code yields
`0` - silence - where the claim (and the code's own documentation)
require the output to equal the input `7`; at `wet = 1/2` it yields
`5*(1/2) + 7*(-(1/2)) = -1` where the claimed crossfade gives `6`. -/
theorem wet_blend_silences_instead_of_bypassing :
    (processNodeOutput 0 (some (Buffer.mk true 1 [7]))
        (Buffer.mk true 1 [5]) 1).data = [0] ∧
    ¬ (processNodeOutput 0 (some (Buffer.mk true 1 [7]))
        (Buffer.mk true 1 [5]) 1).data = [7] ∧
    (processNodeOutput (1/2) (some (Buffer.mk true 1 [7]))
        (Buffer.mk true 1 [5]) 1).data = [-1] ∧
    ¬ (processNodeOutput (1/2) (some (Buffer.mk true 1 [7]))
        (Buffer.mk true 1 [5]) 1).data = [6] := by
  refine ⟨?_, ?_, ?_, ?_⟩ <;>
    simp [processNodeOutput, zip_map, zipMapChannel, channelSamples,
          channelIndices, zeroFillTail, fill_samples, blendFn, mul_amp,
          add_amp, to_signed_sample, equilibrium, identity, List.range_succ] <;>
    norm_num

/-! ### Topological-sort lemmas -/

/-- A node returned by `findSource` is a member of `rem`. -/
theorem findSource_mem {edges : List (Nat × Nat)} {rem : List Nat} {v : Nat}
    (h : findSource edges rem = some v) : v ∈ rem :=
  List.mem_of_find?_eq_some h

/-- A node returned by `findSource` has no incoming edge from `rem`. -/
theorem findSource_inDegree {edges : List (Nat × Nat)} {rem : List Nat}
    {v : Nat} (h : findSource edges rem = some v) :
    inDegree edges rem v = 0 := by
  have h2 := List.find?_some h
  simpa using h2

/-- `inDegree` vanishes exactly when no edge enters `v` from `rem`. -/
theorem inDegree_eq_zero_iff {edges : List (Nat × Nat)} {rem : List Nat}
    {v : Nat} :
    inDegree edges rem v = 0 ↔ ∀ u, (u, v) ∈ edges → u ∉ rem := by
  unfold inDegree
  rw [List.length_eq_zero, List.filter_eq_nil_iff]
  constructor
  · intro h u hmem hurem
    have h2 := h (u, v) hmem
    simp only [decide_eq_true_eq] at h2
    exact h2 ⟨trivial, hurem⟩
  · intro h e hmem
    rcases e with ⟨a, b⟩
    simp only [decide_eq_true_eq]
    rintro ⟨h2, h1⟩
    subst h2
    exact h a hmem h1

/-- When `findSource` fails, every node of `rem` has a predecessor in
`rem`. -/
theorem findSource_none {edges : List (Nat × Nat)} {rem : List Nat}
    (h : findSource edges rem = none) :
    ∀ v ∈ rem, ∃ u ∈ rem, (u, v) ∈ edges := by
  intro v hv
  have h2 := List.find?_eq_none.mp h v hv
  have h3 : inDegree edges rem v ≠ 0 := by simpa using h2
  by_contra hno
  push_neg at hno
  exact h3 (inDegree_eq_zero_iff.mpr (fun u hmem hurem => hno u hurem hmem))

/-- If every node of a nonempty `rem` has a predecessor inside `rem`,
the edge relation has a cycle: iterating any predecessor choice for one
step more than `rem` has nodes revisits a node (pigeonhole), and the
edges walked between the two visits close a cycle. -/
theorem noSource_cycle {edges : List (Nat × Nat)} {rem : List Nat}
    (hne : rem ≠ [])
    (hall : ∀ v ∈ rem, ∃ u ∈ rem, (u, v) ∈ edges) : HasCycle edges := by
  have hall2 : ∀ v, ∃ u, v ∈ rem → (u ∈ rem ∧ (u, v) ∈ edges) := by
    intro v
    by_cases hv : v ∈ rem
    · obtain ⟨u, hu, he⟩ := hall v hv
      exact ⟨u, fun _ => ⟨hu, he⟩⟩
    · exact ⟨0, fun h => absurd h hv⟩
  choose f hf using hall2
  obtain ⟨v0, hv0⟩ := List.exists_mem_of_ne_nil rem hne
  have hxmem : ∀ k, f^[k] v0 ∈ rem := by
    intro k
    induction k with
    | zero => simpa using hv0
    | succ k ih =>
        rw [Function.iterate_succ_apply']
        exact (hf (f^[k] v0) ih).1
  have hxedge : ∀ k, (f^[k + 1] v0, f^[k] v0) ∈ edges := by
    intro k
    rw [Function.iterate_succ_apply']
    exact (hf (f^[k] v0) (hxmem k)).2
  have hchain : ∀ d i, Relation.TransGen (fun a b => (a, b) ∈ edges)
      (f^[i + d + 1] v0) (f^[i] v0) := by
    intro d
    induction d with
    | zero => exact fun i => Relation.TransGen.single (hxedge i)
    | succ d ih =>
        intro i
        have h1 : (f^[i + d + 2] v0, f^[i + d + 1] v0) ∈ edges := hxedge (i + d + 1)
        have h2 : Relation.TransGen (fun a b => (a, b) ∈ edges)
            (f^[i + d + 1] v0) (f^[i] v0) := ih i
        have h3 : i + (d + 1) + 1 = i + d + 2 := by omega
        rw [h3]
        exact Relation.TransGen.head h1 h2
  have hcard : rem.toFinset.card < (Finset.range (rem.length + 1)).card := by
    rw [Finset.card_range]
    exact Nat.lt_succ_of_le rem.toFinset_card_le
  have hmaps : ∀ k ∈ Finset.range (rem.length + 1),
      f^[k] v0 ∈ rem.toFinset := fun k _ => List.mem_toFinset.mpr (hxmem k)
  obtain ⟨i, _, j, _, hij, heq⟩ :=
    Finset.exists_ne_map_eq_of_card_lt_of_maps_to hcard hmaps
  have key : ∀ a b : Nat, a < b → f^[a] v0 = f^[b] v0 → HasCycle edges := by
    intro a b hab hfeq
    refine ⟨f^[a] v0, ?_⟩
    have h4 : a + (b - a - 1) + 1 = b := by omega
    have h5 := hchain (b - a - 1) a
    rw [h4] at h5
    nth_rewrite 1 [hfeq]
    exact h5
  rcases Nat.lt_or_ge i j with h | h
  · exact key i j h heq
  · exact key j i (by omega) heq.symm

/-- Soundness of the Kahn sort: a successful run on `rem` (with enough
fuel) returns a permutation of `rem` in which every edge inside `rem`
goes from an earlier to a later position. -/
theorem kahnAux_sound (edges : List (Nat × Nat)) :
    ∀ fuel rem ord, rem.length ≤ fuel → kahnAux edges fuel rem = some ord →
      List.Perm ord rem ∧
      ∀ u v, (u, v) ∈ edges → u ∈ rem → v ∈ rem →
        ord.indexOf u < ord.indexOf v := by
  intro fuel
  induction fuel with
  | zero =>
      intro rem ord hlen h
      match rem, hlen with
      | [], _ =>
          simp only [kahnAux, Option.some.injEq] at h
          subst h
          exact ⟨List.Perm.refl _, fun u v _ _ hv => absurd hv (by simp)⟩
  | succ fuel ih =>
      intro rem ord hlen h
      match rem with
      | [] =>
          simp only [kahnAux, Option.some.injEq] at h
          subst h
          exact ⟨List.Perm.refl _, fun u v _ _ hv => absurd hv (by simp)⟩
      | r :: rs =>
          rw [kahnAux] at h
          cases hfind : findSource edges (r :: rs) with
          | none => rw [hfind] at h; exact absurd h (by simp)
          | some s =>
              rw [hfind] at h
              obtain ⟨ord2, hord2, rfl⟩ := Option.map_eq_some'.mp h
              have hs : s ∈ r :: rs := findSource_mem hfind
              have hlen2 : ((r :: rs).erase s).length ≤ fuel := by
                rw [List.length_erase_of_mem hs]
                simpa using Nat.le_of_succ_le_succ hlen
              obtain ⟨hperm, hord⟩ := ih ((r :: rs).erase s) ord2 hlen2 hord2
              have hsrc := findSource_inDegree hfind
              constructor
              · exact (hperm.cons s).trans (List.perm_cons_erase hs).symm
              · intro u v huv hu hv
                by_cases hvs : v = s
                · subst hvs
                  exact absurd hu (inDegree_eq_zero_iff.mp hsrc u huv)
                · by_cases hus : u = s
                  · subst hus
                    rw [List.indexOf_cons_self]
                    rw [List.indexOf_cons_ne _ (fun h2 => hvs h2.symm)]
                    exact Nat.succ_pos _
                  · have hu2 : u ∈ (r :: rs).erase s :=
                      (List.mem_erase_of_ne hus).mpr hu
                    have hv2 : v ∈ (r :: rs).erase s :=
                      (List.mem_erase_of_ne hvs).mpr hv
                    have := hord u v huv hu2 hv2
                    rw [List.indexOf_cons_ne _ (fun h2 => hus h2.symm),
                        List.indexOf_cons_ne _ (fun h2 => hvs h2.symm)]
                    omega

/-- Completeness of the Kahn sort: a failing run (with enough fuel) can
only be caused by a cycle. -/
theorem kahnAux_none_cycle (edges : List (Nat × Nat)) :
    ∀ fuel rem, rem.length ≤ fuel → kahnAux edges fuel rem = none →
      HasCycle edges := by
  intro fuel
  induction fuel with
  | zero =>
      intro rem hlen h
      match rem, hlen with
      | [], _ => exact absurd h (by simp [kahnAux])
  | succ fuel ih =>
      intro rem hlen h
      match rem with
      | [] => exact absurd h (by simp [kahnAux])
      | r :: rs =>
          rw [kahnAux] at h
          cases hfind : findSource edges (r :: rs) with
          | none =>
              exact noSource_cycle (by simp) (findSource_none hfind)
          | some s =>
              rw [hfind] at h
              have hinner := Option.map_eq_none'.mp h
              have hs : s ∈ r :: rs := findSource_mem hfind
              have hlen2 : ((r :: rs).erase s).length ≤ fuel := by
                rw [List.length_erase_of_mem hs]
                simpa using Nat.le_of_succ_le_succ hlen
              exact ih ((r :: rs).erase s) hlen2 hinner

/-- A successful toposort puts the endpoints of every reachability pair
in strictly increasing positions (edges assumed internal to the node
list). -/
theorem toposort_transGen_indexOf_lt {edges : List (Nat × Nat)}
    {nodesL ord : List Nat} (hs : toposort edges nodesL = some ord)
    (hwf : ∀ e ∈ edges, e.1 ∈ nodesL ∧ e.2 ∈ nodesL) :
    ∀ u v, Relation.TransGen (fun a b => (a, b) ∈ edges) u v →
      ord.indexOf u < ord.indexOf v := by
  obtain ⟨_, hord⟩ := kahnAux_sound edges nodesL.length nodesL ord le_rfl hs
  intro u v h
  induction h with
  | single he => exact hord _ _ he (hwf _ he).1 (hwf _ he).2
  | tail _ hbc ih =>
      exact lt_trans ih (hord _ _ hbc (hwf _ hbc).1 (hwf _ hbc).2)

/-- A successful toposort certifies acyclicity. -/
theorem toposort_some_not_cycle {edges : List (Nat × Nat)}
    {nodesL ord : List Nat}
    (hwf : ∀ e ∈ edges, e.1 ∈ nodesL ∧ e.2 ∈ nodesL)
    (hs : toposort edges nodesL = some ord) : ¬ HasCycle edges := by
  rintro ⟨v, hv⟩
  exact lt_irrefl _ (toposort_transGen_indexOf_lt hs hwf v v hv)

/-- A failing toposort exhibits a cycle. -/
theorem toposort_none_cycle {edges : List (Nat × Nat)} {nodesL : List Nat}
    (h : toposort edges nodesL = none) : HasCycle edges :=
  kahnAux_none_cycle edges nodesL.length nodesL le_rfl h

/-- C1: for every acyclic graph, `updated()` succeeds, and the cached
topological order `ordered_nodes` it computes is a permutation of the
node set in which, for every edge, the parent occupies an earlier
position than the child - so `process_nodes` evaluates every producer
before its consumers. -/
theorem updated_topological_order (g : Graph) (hwf : g.WFEdges)
    (hacyc : ¬ HasCycle g.edgePairs) :
    ∃ g2, g.updated = some g2 ∧
      List.Perm g2.orderedNodes g.nodeIds ∧
      ∀ u v, (u, v) ∈ g.edgePairs →
        g2.orderedNodes.indexOf u < g2.orderedNodes.indexOf v := by
  cases hts : toposort g.edgePairs g.nodeIds with
  | none => exact absurd (toposort_none_cycle hts) hacyc
  | some ord =>
      obtain ⟨hperm, hord⟩ :=
        kahnAux_sound g.edgePairs g.nodeIds.length g.nodeIds ord le_rfl hts
      refine ⟨{ g with orderedNodes := ord }, ?_, hperm, ?_⟩
      · simp [Graph.updated, hts]
      · intro u v huv
        exact hord u v huv (hwf _ huv).1 (hwf _ huv).2

/-- C1 witness: a two-node graph with one edge. -/
theorem updated_topological_order_witness :
    (Graph.mk [(0, 2), (1, 2)] [(0, 0, 1)] [] 2 2 1).WFEdges ∧
    ¬ HasCycle (Graph.mk [(0, 2), (1, 2)] [(0, 0, 1)] [] 2 2 1).edgePairs ∧
    (∃ g2, (Graph.mk [(0, 2), (1, 2)] [(0, 0, 1)] [] 2 2 1).updated = some g2 ∧
      List.Perm g2.orderedNodes
        (Graph.mk [(0, 2), (1, 2)] [(0, 0, 1)] [] 2 2 1).nodeIds ∧
      ∀ u v, (u, v) ∈ (Graph.mk [(0, 2), (1, 2)] [(0, 0, 1)] [] 2 2 1).edgePairs →
        g2.orderedNodes.indexOf u < g2.orderedNodes.indexOf v) := by
  have hwf : (Graph.mk [(0, 2), (1, 2)] [(0, 0, 1)] [] 2 2 1).WFEdges := by decide
  have hts : toposort (Graph.mk [(0, 2), (1, 2)] [(0, 0, 1)] [] 2 2 1).edgePairs
      (Graph.mk [(0, 2), (1, 2)] [(0, 0, 1)] [] 2 2 1).nodeIds = some [0, 1] := by
    decide
  have hacyc := toposort_some_not_cycle
    (by decide : ∀ e ∈ (Graph.mk [(0, 2), (1, 2)] [(0, 0, 1)] [] 2 2 1).edgePairs,
      e.1 ∈ (Graph.mk [(0, 2), (1, 2)] [(0, 0, 1)] [] 2 2 1).nodeIds ∧
      e.2 ∈ (Graph.mk [(0, 2), (1, 2)] [(0, 0, 1)] [] 2 2 1).nodeIds) hts
  exact ⟨hwf, hacyc, updated_topological_order _ hwf hacyc⟩

/-- C7: `updated()` fails fatally (the `.expect` panic, modelled as
`none`) exactly when the graph has a cycle; on every acyclic graph it
succeeds by recomputing the order. -/
theorem updated_fails_iff_cycle (g : Graph) (hwf : g.WFEdges) :
    g.updated = none ↔ HasCycle g.edgePairs := by
  constructor
  · intro h
    cases hts : toposort g.edgePairs g.nodeIds with
    | none => exact toposort_none_cycle hts
    | some ord =>
        rw [Graph.updated, hts] at h
        exact absurd h (by simp)
  · intro hcyc
    cases hts : toposort g.edgePairs g.nodeIds with
    | none => rw [Graph.updated, hts]; rfl
    | some ord => exact absurd hcyc (toposort_some_not_cycle hwf hts)

/-- C7 witness: a two-node cycle. -/
theorem updated_fails_iff_cycle_witness :
    (Graph.mk [(0, 1), (1, 1)] [(0, 0, 1), (1, 1, 0)] [] 1 2 2).WFEdges ∧
    ((Graph.mk [(0, 1), (1, 1)] [(0, 0, 1), (1, 1, 0)] [] 1 2 2).updated = none ↔
      HasCycle (Graph.mk [(0, 1), (1, 1)] [(0, 0, 1), (1, 1, 0)] [] 1 2 2).edgePairs) :=
  ⟨by decide, updated_fails_iff_cycle _ (by decide)⟩

end Foxlive
